import Mathlib

/-!
Shallow embedding of the QVM long-only pipeline (src/QVM_Long_Only.py).
A Security carries the per-day fields the pipeline reads; numeric data is
modelled as Option ℚ, with none mirroring a NaN / missing value.
-/

structure Security where
  sid : Nat
  marketCap : Option ℚ
  priceClose : Option ℚ
  dollarVolume : Option ℚ
  exchangeId : List Char
  roe : Option ℚ
  fcfYield : Option ℚ
  fcfPerShare : Option ℚ
  ret20 : Option ℚ
deriving DecidableEq

/-- Boolean prefix test on character lists, embedding str.startswith. -/
def startswith : List Char → List Char → Bool
  | [], _ => true
  | _ :: _, [] => false
  | c :: cs, d :: ds => c == d && startswith cs ds

def otcChars : List Char := ['O', 'T', 'C']

/-- Comparison of a possibly-missing value with a threshold: NaN compares
false, so missing-field records fail the screen rather than erroring. -/
def optGtB (o : Option ℚ) (c : ℚ) : Bool :=
  match o with
  | some v => decide (c < v)
  | none => false

/-- The universe screen with its three numeric thresholds exposed as
parameters (the source hardcodes the defaults in min_liq_univ). -/
def univScreen (minCap minPrice minVol : ℚ) (s : Security) : Bool :=
  optGtB s.marketCap minCap && optGtB s.priceClose minPrice &&
    optGtB s.dollarVolume minVol && !(startswith otcChars s.exchangeId)

/-- min_liq_univ: market cap > 50e6, close > 1, 20-day average dollar
volume > 200000, and exchange id not starting with OTC. -/
def min_liq_univ (s : Security) : Bool :=
  univScreen 50000000 1 200000 s

/-- C3: a record whose screen fields are present is in the universe mask
iff market cap exceeds 50,000,000, closing price exceeds 1, 20-day average
dollar volume exceeds 200,000, and the exchange identifier does not start
with the prefix OTC (conjunction of the four screens). -/
theorem mask_iff_screens (s : Security) (mc pc dv : ℚ)
    (hmc : s.marketCap = some mc) (hpc : s.priceClose = some pc)
    (hdv : s.dollarVolume = some dv) :
    min_liq_univ s = true ↔
      (50000000 < mc ∧ 1 < pc ∧ 200000 < dv ∧
        startswith otcChars s.exchangeId = false) := by
  simp only [min_liq_univ, univScreen, optGtB, hmc, hpc, hdv,
    Bool.and_eq_true, decide_eq_true_eq, Bool.not_eq_true']
  tauto

def secA : Security :=
  ⟨1, some 100000000, some 10, some 1000000, ['N', 'Y', 'S'],
    some 2, some 3, some 4, some 5⟩

theorem mask_iff_screens_inst :
    min_liq_univ secA = true ↔
      (50000000 < (100000000 : ℚ) ∧ 1 < (10 : ℚ) ∧ 200000 < (1000000 : ℚ) ∧
        startswith otcChars secA.exchangeId = false) :=
  mask_iff_screens secA 100000000 10 1000000 rfl rfl rfl

/-- Number of participant values strictly below v. -/
def countLt (vals : List ℚ) (v : ℚ) : Nat :=
  (vals.filter (fun x => decide (x < v))).length

/-- Number of participant values equal to v (the tie group of v). -/
def countEq (vals : List ℚ) (v : ℚ) : Nat :=
  (vals.filter (fun x => decide (x = v))).length

/-- Average-method ascending rank of v among vals: the values strictly
below v, plus the midpoint of the ordinal positions the tie group of v
occupies (rank 1 = lowest, higher raw value = higher rank). -/
def rankAvg (vals : List ℚ) (v : ℚ) : ℚ :=
  (countLt vals v : ℚ) + ((countEq vals v : ℚ) + 1) / 2

/-- The participant values of one factor column: securities in the
universe mask whose value is present. -/
def maskedVals (g : Security → Option ℚ) (t : List Security) : List ℚ :=
  (t.filter min_liq_univ).filterMap g

/-- One rank column, embedding factor.rank(method = average, mask =
min_liq_univ): masked-out securities and missing values stay unranked. -/
def rankCol (g : Security → Option ℚ) (t : List Security) (s : Security) :
    Option ℚ :=
  if min_liq_univ s = true then (g s).map (fun v => rankAvg (maskedVals g t) v)
  else none

lemma countLt_add_countEq_le (vals : List ℚ) (v : ℚ) :
    countLt vals v + countEq vals v ≤ vals.length := by
  induction vals with
  | nil => simp [countLt, countEq]
  | cons x xs ih =>
    by_cases h1 : x < v
    · have h2 : ¬(x = v) := ne_of_lt h1
      simp [countLt, countEq, List.filter_cons, h1, h2] at *
      omega
    · by_cases h2 : x = v
      · simp [countLt, countEq, List.filter_cons, h1, h2] at *
        omega
      · simp [countLt, countEq, List.filter_cons, h1, h2] at *
        omega

lemma one_le_countEq {vals : List ℚ} {v : ℚ} (h : v ∈ vals) :
    1 ≤ countEq vals v := by
  have hm : v ∈ vals.filter (fun x => decide (x = v)) :=
    List.mem_filter.2 ⟨h, by simp⟩
  have := List.length_pos_of_mem hm
  simpa [countEq] using this

lemma sum_range_cast (k : ℕ) :
    ∑ j ∈ Finset.range k, (j : ℚ) = (k : ℚ) * ((k : ℚ) - 1) / 2 := by
  induction k with
  | zero => simp
  | succ n ih =>
    rw [Finset.sum_range_succ, ih]
    push_cast
    ring

/-- C2: a participant of any factor column (in the mask, value present)
gets a rank between 1 and the participant count, and its tie group of
size k starting above p = countLt values carries total rank mass equal to
the sum of the ordinal positions p+1, ..., p+k it jointly occupies. -/
theorem rank_bounds_and_tie_sum (g : Security → Option ℚ) (t : List Security)
    (s : Security) (v : ℚ) (hs : s ∈ t) (hm : min_liq_univ s = true)
    (hg : g s = some v) :
    rankCol g t s = some (rankAvg (maskedVals g t) v) ∧
    1 ≤ rankAvg (maskedVals g t) v ∧
    rankAvg (maskedVals g t) v ≤ ((maskedVals g t).length : ℚ) ∧
    (countEq (maskedVals g t) v : ℚ) * rankAvg (maskedVals g t) v =
      ∑ j ∈ Finset.range (countEq (maskedVals g t) v),
        ((countLt (maskedVals g t) v + 1 + j : ℕ) : ℚ) := by
  have hv : v ∈ maskedVals g t :=
    List.mem_filterMap.2 ⟨s, List.mem_filter.2 ⟨hs, hm⟩, hg⟩
  have hk : 1 ≤ countEq (maskedVals g t) v := one_le_countEq hv
  have hk' : (1 : ℚ) ≤ (countEq (maskedVals g t) v : ℚ) := by exact_mod_cast hk
  have hp : (0 : ℚ) ≤ (countLt (maskedVals g t) v : ℚ) := by positivity
  have hle := countLt_add_countEq_le (maskedVals g t) v
  have hle' : (countLt (maskedVals g t) v : ℚ) + (countEq (maskedVals g t) v : ℚ)
      ≤ ((maskedVals g t).length : ℚ) := by exact_mod_cast hle
  refine ⟨by simp [rankCol, hm, hg], ?_, ?_, ?_⟩
  · unfold rankAvg
    linarith
  · unfold rankAvg
    linarith
  · have hsum : ∑ j ∈ Finset.range (countEq (maskedVals g t) v),
        ((countLt (maskedVals g t) v + 1 + j : ℕ) : ℚ)
        = ∑ j ∈ Finset.range (countEq (maskedVals g t) v),
            (((countLt (maskedVals g t) v : ℚ) + 1) + (j : ℚ)) := by
      refine Finset.sum_congr rfl ?_
      intro j _
      push_cast
      ring
    rw [hsum, Finset.sum_add_distrib, Finset.sum_const, Finset.card_range,
      sum_range_cast]
    unfold rankAvg
    ring

def secB : Security :=
  ⟨2, some 100000000, some 10, some 1000000, ['N', 'Y', 'S'],
    some 2, some 1, some 1, some 1⟩

theorem rank_bounds_and_tie_sum_inst :
    secA ∈ [secA, secB] ∧ min_liq_univ secA = true ∧
      1 ≤ rankAvg (maskedVals (fun x => x.roe) [secA, secB]) 2 :=
  ⟨by simp, by decide,
    (rank_bounds_and_tie_sum (fun x => x.roe) [secA, secB] secA 2
      (by simp) (by decide) rfl).2.1⟩

/-- quality = roe.rank(method = average, mask = min_liq_univ). -/
def quality (t : List Security) (s : Security) : Option ℚ :=
  rankCol (fun x => x.roe) t s

/-- value = fcf_yield.rank(method = average, mask = min_liq_univ). -/
def value (t : List Security) (s : Security) : Option ℚ :=
  rankCol (fun x => x.fcfYield) t s

/-- momentum = ret_20.rank(method = average, mask = min_liq_univ). -/
def momentum (t : List Security) (s : Security) : Option ℚ :=
  rankCol (fun x => x.ret20) t s

/-- The NaN-propagating sum quality + value + momentum of the three rank
columns: missing in any summand makes the sum missing. -/
def composite_raw (t : List Security) (s : Security) : Option ℚ :=
  match quality t s, value t s, momentum t s with
  | some a, some b, some c => some (a + b + c)
  | _, _, _ => none

/-- qvm = (quality + value + momentum).rank(method = average,
mask = min_liq_univ): the composite sum re-ranked under the same mask. -/
def qvm (t : List Security) (s : Security) : Option ℚ :=
  rankCol (composite_raw t) t s

/-- fcf_yield_manual = fcf_per_share / price_close, the manually derived
value check kept as an output column only. -/
def fcf_yield_manual (s : Security) : Option ℚ :=
  match s.fcfPerShare, s.priceClose with
  | some f, some p => some (f / p)
  | _, _ => none

/-- Worded from the spec (section 4.4), for comparison with the
code-derived composite: the simple unweighted sum of the three per-factor
ranks, missing when any per-factor rank is missing. -/
def specCompositeRaw (t : List Security) (s : Security) : Option ℚ :=
  (quality t s).bind fun a =>
    (value t s).bind fun b =>
      (momentum t s).map fun c => a + b + c

/-- Worded from the spec (section 4.4): the sum column fed back through
the rank engine under the same universe mask. -/
def specCompositeRank (t : List Security) (s : Security) : Option ℚ :=
  rankCol (specCompositeRaw t) t s

/-- C1: the composite is computed in two stages: composite_raw is the
unweighted sum of the three per-factor ranks, and the final composite
rank qvm is composite_raw re-ranked (average ties) under the same
universe mask, agreeing with the spec-worded two-stage definition. -/
theorem composite_two_stage (t : List Security) (s : Security) :
    composite_raw t s = specCompositeRaw t s ∧
    qvm t s = rankCol (composite_raw t) t s ∧
    qvm t s = specCompositeRank t s := by
  have h1 : ∀ u, composite_raw t u = specCompositeRaw t u := by
    intro u
    unfold composite_raw specCompositeRaw
    cases quality t u <;> cases value t u <;> cases momentum t u <;> rfl
  refine ⟨h1 s, rfl, ?_⟩
  unfold qvm specCompositeRank
  rw [show composite_raw t = specCompositeRaw t from funext h1]

/-- Positional enumeration of the table, pairing each security with its
row index. -/
def enumerate : Nat → List Security → List (Nat × Security)
  | _, [] => []
  | n, s :: rest => (n, s) :: enumerate (n + 1) rest

/-- Participation in a ranked column: in the mask with a present value. -/
def isPart (g : Security → Option ℚ) (s : Security) : Bool :=
  min_liq_univ s && (g s).isSome

/-- Sort key of a participant row: its column value with its row index. -/
def keyOf (g : Security → Option ℚ) (p : Nat × Security) : ℚ × Nat :=
  ((g p.2).getD 0, p.1)

/-- Strict priority order behind top: larger value first, earlier row
first among exact ties (the stable ordinal tie-break). -/
def beats (a b : ℚ × Nat) : Bool :=
  decide (b.1 < a.1) || (decide (a.1 = b.1) && decide (a.2 < b.2))

/-- factor.top(k, mask): the row participates and fewer than k
participant rows have strictly higher priority, i.e. its descending
ordinal rank is at most k. -/
def topFlag (g : Security → Option ℚ) (k : Nat) (t : List Security)
    (p : Nat × Security) : Bool :=
  isPart g p.2 &&
    decide (((enumerate 0 t).filter
      (fun q => isPart g q.2 && beats (keyOf g q) (keyOf g p))).length < k)

/-- long_10 = qvm.top(10, mask = min_liq_univ). -/
def long_10 (t : List Security) (p : Nat × Security) : Bool :=
  topFlag (qvm t) 10 t p

/-- One row of the pipeline output, one field per requested column. -/
structure PipeRow where
  sid : Nat
  mktcap : Option ℚ
  fcf_yield : Option ℚ
  fcf_yield_manual : Option ℚ
  roe : Option ℚ
  ret_20 : Option ℚ
  quality : Option ℚ
  value : Option ℚ
  momentum : Option ℚ
  qvm : Option ℚ
  long_10 : Bool
deriving DecidableEq

/-- The pipeline output: one row per security passing the screen
(screen = min_liq_univ), carrying every requested column. -/
def pipeRows (t : List Security) : List PipeRow :=
  ((enumerate 0 t).filter (fun p => min_liq_univ p.2)).map
    (fun p =>
      { sid := p.2.sid
        mktcap := p.2.marketCap
        fcf_yield := p.2.fcfYield
        fcf_yield_manual := fcf_yield_manual p.2
        roe := p.2.roe
        ret_20 := p.2.ret20
        quality := quality t p.2
        value := value t p.2
        momentum := momentum t p.2
        qvm := qvm t p.2
        long_10 := long_10 t p })

/-- context.longs: the identifiers of the output rows flagged long_10. -/
def selection (t : List Security) : List Nat :=
  ((pipeRows t).filter (fun r => r.long_10)).map (fun r => r.sid)

inductive TradeAct where
  | openLong
  | closeLong
deriving DecidableEq

/-- One emitted order_target_percent call: security, target weight, and
which loop of rebalance emitted it. -/
structure TradeOrder where
  sid : Nat
  target : ℚ
  act : TradeAct
deriving DecidableEq

def long_weight : ℚ := 1 / 10

/-- rebalance: the open loop over the selection (tradable and not held),
then the close loop over held positions (not selected and tradable). -/
def rebalanceOrders (longs : List Nat) (positions : List (Nat × ℚ))
    (canTrade : Nat → Bool) (w : ℚ) : List TradeOrder :=
  ((longs.filter (fun s => canTrade s &&
      !(decide (s ∈ positions.map Prod.fst)))).map
    (fun s => ⟨s, w, TradeAct.openLong⟩)) ++
  ((positions.filter (fun q => !(decide (q.1 ∈ longs)) && canTrade q.1)).map
    (fun q => ⟨q.1, 0, TradeAct.closeLong⟩))

/-- The source's rebalance at its hardcoded equal weight 0.1. -/
def rebalance (longs : List Nat) (positions : List (Nat × ℚ))
    (canTrade : Nat → Bool) : List TradeOrder :=
  rebalanceOrders longs positions canTrade long_weight

/-- C4 counterexample: the claim that every selected security not held
at exactly the target weight receives an open instruction fails: with
security 1 selected, held at weight 2, and tradable, the code emits no
instruction at all, because the open loop only tests membership in the
positions mapping, never the held weight. -/
theorem open_claim_false :
    ¬ (∀ (longs : List Nat) (positions : List (Nat × ℚ))
        (canTrade : Nat → Bool) (w : ℚ) (s : Nat),
        s ∈ longs → (¬ ∃ q ∈ positions, q.1 = s ∧ q.2 = w) →
        (⟨s, w, TradeAct.openLong⟩ : TradeOrder) ∈
          rebalanceOrders longs positions canTrade w) := by
  intro h
  have h2 := h [1] [(1, 2)] (fun _ => true) (1/10) 1 (by simp) (by norm_num)
  rw [show rebalanceOrders [1] [(1, 2)] (fun _ => true) (1/10) = [] from by decide]
    at h2
  exact absurd h2 (List.not_mem_nil _)


/-- C4 amended: the rebalancer emits an open instruction at the target
weight exactly for a selected security that is tradable and not currently
held at any weight; a selected security already held, whatever its held
weight, receives no instruction at all. -/
theorem open_emission (longs : List Nat) (positions : List (Nat × ℚ))
    (canTrade : Nat → Bool) (w : ℚ) (s : Nat) :
    ((⟨s, w, TradeAct.openLong⟩ : TradeOrder) ∈
        rebalanceOrders longs positions canTrade w
      ↔ s ∈ longs ∧ canTrade s = true ∧ s ∉ positions.map Prod.fst) ∧
    (s ∈ longs → s ∈ positions.map Prod.fst →
      ∀ o ∈ rebalanceOrders longs positions canTrade w, o.sid ≠ s) := by
  constructor
  · constructor
    · intro hmem
      rcases List.mem_append.1 hmem with hop | hcl
      · rcases List.mem_map.1 hop with ⟨a, ha, hae⟩
        rcases List.mem_filter.1 ha with ⟨hal, hpred⟩
        have has : a = s := congrArg TradeOrder.sid hae
        subst has
        rw [Bool.and_eq_true] at hpred
        refine ⟨hal, hpred.1, ?_⟩
        simpa using hpred.2
      · rcases List.mem_map.1 hcl with ⟨q, hq, hqe⟩
        have : TradeAct.closeLong = TradeAct.openLong :=
          congrArg TradeOrder.act hqe
        simp at this
    · rintro ⟨hl, hct, hnp⟩
      refine List.mem_append.2 (Or.inl ?_)
      refine List.mem_map.2 ⟨s, List.mem_filter.2 ⟨hl, ?_⟩, rfl⟩
      simp [hct, hnp]
  · intro hl hp o ho hsid
    rcases List.mem_append.1 ho with hop | hcl
    · rcases List.mem_map.1 hop with ⟨a, ha, rfl⟩
      rcases List.mem_filter.1 ha with ⟨hal, hpred⟩
      rw [Bool.and_eq_true] at hpred
      have hnp : ¬ a ∈ positions.map Prod.fst := by simpa using hpred.2
      exact hnp (by rw [show a = s from hsid]; exact hp)
    · rcases List.mem_map.1 hcl with ⟨q, hq, rfl⟩
      rcases List.mem_filter.1 hq with ⟨hqp, hpred⟩
      rw [Bool.and_eq_true] at hpred
      have hnl : ¬ q.1 ∈ longs := by simpa using hpred.1
      exact hnl (by rw [show q.1 = s from hsid]; exact hl)

theorem open_emission_inst :
    ((⟨1, 1/10, TradeAct.openLong⟩ : TradeOrder) ∈
        rebalanceOrders [1, 2] [(2, 7)] (fun _ => true) (1/10)) ∧
    (∀ o ∈ rebalanceOrders [1, 2] [(2, 7)] (fun _ => true) (1/10),
      o.sid ≠ 2) :=
  ⟨(open_emission [1, 2] [(2, 7)] (fun _ => true) (1/10) 1).1.2
      ⟨by simp, rfl, by decide⟩,
    (open_emission [1, 2] [(2, 7)] (fun _ => true) (1/10) 2).2
      (by simp) (by decide)⟩

/-- C6: a currently held security outside the selection receives a close
instruction (target weight 0) exactly when it is tradable; an untradeable
held position is left untouched, with no instruction of any kind. -/
theorem close_iff_tradable (longs : List Nat) (positions : List (Nat × ℚ))
    (canTrade : Nat → Bool) (w : ℚ) (s : Nat)
    (hheld : s ∈ positions.map Prod.fst) (hnl : s ∉ longs) :
    ((∃ o ∈ rebalanceOrders longs positions canTrade w,
        o.sid = s ∧ o.target = 0 ∧ o.act = TradeAct.closeLong)
      ↔ canTrade s = true) ∧
    (canTrade s = false →
      ∀ o ∈ rebalanceOrders longs positions canTrade w, o.sid ≠ s) := by
  constructor
  · constructor
    · rintro ⟨o, ho, hsid, -, -⟩
      rcases List.mem_append.1 ho with hop | hcl
      · rcases List.mem_map.1 hop with ⟨a, ha, rfl⟩
        rcases List.mem_filter.1 ha with ⟨hal, -⟩
        exact absurd (by rw [show a = s from hsid] at hal; exact hal) hnl
      · rcases List.mem_map.1 hcl with ⟨q, hq, rfl⟩
        rcases List.mem_filter.1 hq with ⟨-, hpred⟩
        rw [Bool.and_eq_true] at hpred
        rw [show q.1 = s from hsid] at hpred
        exact hpred.2
    · intro hct
      rcases List.mem_map.1 hheld with ⟨q, hq, hqs⟩
      refine ⟨⟨s, 0, TradeAct.closeLong⟩, ?_, rfl, rfl, rfl⟩
      refine List.mem_append.2 (Or.inr ?_)
      refine List.mem_map.2 ⟨q, List.mem_filter.2 ⟨hq, ?_⟩, by rw [hqs]⟩
      rw [hqs]
      simp [hnl, hct]
  · intro hct o ho hsid
    rcases List.mem_append.1 ho with hop | hcl
    · rcases List.mem_map.1 hop with ⟨a, ha, rfl⟩
      rcases List.mem_filter.1 ha with ⟨-, hpred⟩
      rw [Bool.and_eq_true] at hpred
      rw [show a = s from hsid, hct] at hpred
      exact Bool.false_ne_true hpred.1
    · rcases List.mem_map.1 hcl with ⟨q, hq, rfl⟩
      rcases List.mem_filter.1 hq with ⟨-, hpred⟩
      rw [Bool.and_eq_true] at hpred
      rw [show q.1 = s from hsid, hct] at hpred
      exact Bool.false_ne_true hpred.2

theorem close_iff_tradable_inst :
    (3 ∈ ([(3, 7)] : List (Nat × ℚ)).map Prod.fst) ∧ 3 ∉ [1, 2] ∧
    ((∃ o ∈ rebalanceOrders [1, 2] [(3, 7)] (fun _ => true) (1/10),
        o.sid = 3 ∧ o.target = 0 ∧ o.act = TradeAct.closeLong)
      ↔ (fun _ => true) 3 = true) :=
  ⟨by decide, by decide,
    (close_iff_tradable [1, 2] [(3, 7)] (fun _ => true) (1/10) 3
      (by decide) (by decide)).1⟩

/-- Full application of an instruction to the positions snapshot: an open
sets the security's position to the target weight, a close removes it. -/
def applyOrder (ps : List (Nat × ℚ)) (o : TradeOrder) : List (Nat × ℚ) :=
  match o.act with
  | TradeAct.openLong =>
      (ps.filter (fun q => !(q.1 == o.sid))) ++ [(o.sid, o.target)]
  | TradeAct.closeLong => ps.filter (fun q => !(q.1 == o.sid))

def applyOrders (ps : List (Nat × ℚ)) (os : List TradeOrder) : List (Nat × ℚ) :=
  os.foldl applyOrder ps

lemma applyOrders_cons (ps : List (Nat × ℚ)) (o : TradeOrder)
    (os : List TradeOrder) :
    applyOrders ps (o :: os) = applyOrders (applyOrder ps o) os := rfl

lemma mem_applyOrder_elim {ps : List (Nat × ℚ)} {o : TradeOrder}
    {q : Nat × ℚ} (h : q ∈ applyOrder ps o) :
    q ∈ ps ∨ q = (o.sid, o.target) := by
  revert h
  unfold applyOrder
  cases o.act with
  | openLong =>
    intro h
    rcases List.mem_append.1 h with h1 | h1
    · exact Or.inl (List.mem_filter.1 h1).1
    · simp at h1
      exact Or.inr h1
  | closeLong =>
    intro h
    exact Or.inl (List.mem_filter.1 h).1

lemma mem_applyOrder_of_ne {ps : List (Nat × ℚ)} {o : TradeOrder}
    {q : Nat × ℚ} (hq : q ∈ ps) (hne : q.1 ≠ o.sid) :
    q ∈ applyOrder ps o := by
  unfold applyOrder
  have hf : q ∈ ps.filter (fun r => !(r.1 == o.sid)) :=
    List.mem_filter.2 ⟨hq, by simp [hne]⟩
  cases o.act with
  | openLong => exact List.mem_append.2 (Or.inl hf)
  | closeLong => exact hf

lemma preserve_absent {s : Nat} :
    ∀ (os : List TradeOrder) (ps : List (Nat × ℚ)),
      (∀ o ∈ os, o.sid ≠ s) → (∀ q ∈ ps, q.1 ≠ s) →
      ∀ q ∈ applyOrders ps os, q.1 ≠ s := by
  intro os
  induction os with
  | nil => intro ps _ hps q hq; exact hps q hq
  | cons o os ih =>
    intro ps hos hps
    rw [applyOrders_cons]
    refine ih (applyOrder ps o) (fun o' h' => hos o' (List.mem_cons_of_mem o h')) ?_
    intro q hq
    rcases mem_applyOrder_elim hq with h1 | h1
    · exact hps q h1
    · rw [h1]
      exact hos o (List.mem_cons_self o os)

lemma preserve_present {s : Nat} :
    ∀ (os : List TradeOrder) (ps : List (Nat × ℚ)),
      (∀ o ∈ os, o.sid ≠ s) → (∃ q ∈ ps, q.1 = s) →
      ∃ q ∈ applyOrders ps os, q.1 = s := by
  intro os
  induction os with
  | nil => intro ps _ hex; exact hex
  | cons o os ih =>
    intro ps hos hex
    rw [applyOrders_cons]
    refine ih (applyOrder ps o) (fun o' h' => hos o' (List.mem_cons_of_mem o h')) ?_
    obtain ⟨q, hq, hqs⟩ := hex
    refine ⟨q, mem_applyOrder_of_ne hq ?_, hqs⟩
    rw [hqs]
    exact fun he => hos o (List.mem_cons_self o os) he.symm

lemma mem_apply_of_open {s : Nat} :
    ∀ (os : List TradeOrder) (ps : List (Nat × ℚ)),
      (∃ o ∈ os, o.sid = s) →
      (∀ o ∈ os, o.sid = s → o.act = TradeAct.openLong) →
      ∃ q ∈ applyOrders ps os, q.1 = s := by
  intro os
  induction os with
  | nil => rintro ps ⟨o, ho, -⟩ _; cases ho
  | cons o os ih =>
    intro ps hex hall
    by_cases hcase : ∃ o' ∈ os, o'.sid = s
    · exact ih (applyOrder ps o) hcase
        (fun o' h' => hall o' (List.mem_cons_of_mem o h'))
    · obtain ⟨o', ho', hs'⟩ := hex
      rcases List.mem_cons.1 ho' with rfl | hmem
      · have hact := hall o' (List.mem_cons_self o' os) hs'
        rw [applyOrders_cons]
        refine preserve_present os (applyOrder ps o')
          (fun o'' h'' hs'' => hcase ⟨o'', h'', hs''⟩) ?_
        refine ⟨(o'.sid, o'.target), ?_, hs'⟩
        unfold applyOrder
        rw [hact]
        exact List.mem_append.2 (Or.inr (by simp))
      · exact absurd ⟨o', hmem, hs'⟩ hcase

lemma not_mem_apply {s : Nat} :
    ∀ (os : List TradeOrder) (ps : List (Nat × ℚ)),
      (∀ o ∈ os, o.sid = s → o.act = TradeAct.closeLong) →
      ((∃ o ∈ os, o.sid = s) ∨ (∀ q ∈ ps, q.1 ≠ s)) →
      ∀ q ∈ applyOrders ps os, q.1 ≠ s := by
  intro os
  induction os with
  | nil =>
    rintro ps _ (⟨o, ho, -⟩ | habs)
    · cases ho
    · exact habs
  | cons o os ih =>
    intro ps hall hcase
    rw [applyOrders_cons]
    by_cases hos : ∃ o' ∈ os, o'.sid = s
    · exact ih (applyOrder ps o)
        (fun o' h' => hall o' (List.mem_cons_of_mem o h')) (Or.inl hos)
    · refine ih (applyOrder ps o)
        (fun o' h' => hall o' (List.mem_cons_of_mem o h')) (Or.inr ?_)
      intro q hq
      by_cases hsid : o.sid = s
      · have hact := hall o (List.mem_cons_self o os) hsid
        unfold applyOrder at hq
        rw [hact] at hq
        have := List.mem_filter.1 hq
        intro he
        rw [he, hsid] at this
        simp at this
      · rcases mem_applyOrder_elim hq with h1 | h1
        · rcases hcase with ⟨o', ho', hs'⟩ | habs
          · rcases List.mem_cons.1 ho' with rfl | hmem
            · exact absurd hs' hsid
            · exact absurd ⟨o', hmem, hs'⟩ hos
          · exact habs q h1
        · rw [h1]
          exact hsid

lemma orders_cases {longs : List Nat} {positions : List (Nat × ℚ)}
    {canTrade : Nat → Bool} {w : ℚ} {o : TradeOrder}
    (h : o ∈ rebalanceOrders longs positions canTrade w) :
    (o.sid ∈ longs ∧ o.sid ∉ positions.map Prod.fst ∧
      o.act = TradeAct.openLong) ∨
    (o.sid ∈ positions.map Prod.fst ∧ o.sid ∉ longs ∧
      o.act = TradeAct.closeLong) := by
  rcases List.mem_append.1 h with hop | hcl
  · rcases List.mem_map.1 hop with ⟨a, ha, rfl⟩
    rcases List.mem_filter.1 ha with ⟨hal, hpred⟩
    rw [Bool.and_eq_true] at hpred
    exact Or.inl ⟨hal, by simpa using hpred.2, rfl⟩
  · rcases List.mem_map.1 hcl with ⟨q, hq, rfl⟩
    rcases List.mem_filter.1 hq with ⟨hqp, hpred⟩
    rw [Bool.and_eq_true] at hpred
    exact Or.inr ⟨List.mem_map.2 ⟨q, hqp, rfl⟩, by simpa using hpred.1, rfl⟩

/-- C8: rebalancing is idempotent: running rebalance again with the same
selection, after the positions snapshot fully reflects the first run's
instructions (everything tradable), emits no instruction at all. -/
theorem rebalance_idempotent (longs : List Nat) (positions : List (Nat × ℚ))
    (w : ℚ) :
    rebalanceOrders longs
      (applyOrders positions (rebalanceOrders longs positions (fun _ => true) w))
      (fun _ => true) w = [] := by
  set os := rebalanceOrders longs positions (fun _ => true) w with hos
  set P2 := applyOrders positions os with hP2
  have ha : ∀ s ∈ longs, s ∈ P2.map Prod.fst := by
    intro s hs
    by_cases hheld : s ∈ positions.map Prod.fst
    · have hnone : ∀ o ∈ os, o.sid ≠ s := by
        intro o ho he
        rcases orders_cases ho with ⟨h1, h2, -⟩ | ⟨h1, h2, -⟩
        · exact h2 (he ▸ hheld)
        · exact h2 (he ▸ hs)
      obtain ⟨q0, hq0, hq0s⟩ := List.mem_map.1 hheld
      obtain ⟨q, hq, hqs⟩ := preserve_present os positions hnone ⟨q0, hq0, hq0s⟩
      exact List.mem_map.2 ⟨q, hq, hqs⟩
    · have hopen : (⟨s, w, TradeAct.openLong⟩ : TradeOrder) ∈ os := by
        rw [hos]
        refine List.mem_append.2 (Or.inl ?_)
        exact List.mem_map.2 ⟨s, List.mem_filter.2 ⟨hs, by simp [hheld]⟩, rfl⟩
      have hall : ∀ o ∈ os, o.sid = s → o.act = TradeAct.openLong := by
        intro o ho he
        rcases orders_cases ho with ⟨-, -, h3⟩ | ⟨h1, h2, -⟩
        · exact h3
        · exact absurd (he ▸ hs) h2
      obtain ⟨q, hq, hqs⟩ :=
        mem_apply_of_open os positions ⟨⟨s, w, TradeAct.openLong⟩, hopen, rfl⟩ hall
      exact List.mem_map.2 ⟨q, hq, hqs⟩
  have hb : ∀ q ∈ P2, q.1 ∈ longs := by
    intro q hq
    by_contra hql
    by_cases hheld : q.1 ∈ positions.map Prod.fst
    · have hall : ∀ o ∈ os, o.sid = q.1 → o.act = TradeAct.closeLong := by
        intro o ho he
        rcases orders_cases ho with ⟨h1, -, -⟩ | ⟨-, -, h3⟩
        · exact absurd (he ▸ h1) hql
        · exact h3
      obtain ⟨q0, hq0, hq0s⟩ := List.mem_map.1 hheld
      have hclose : (⟨q0.1, 0, TradeAct.closeLong⟩ : TradeOrder) ∈ os := by
        rw [hos]
        refine List.mem_append.2 (Or.inr ?_)
        refine List.mem_map.2 ⟨q0, List.mem_filter.2 ⟨hq0, ?_⟩, rfl⟩
        rw [hq0s]
        simp [hql]
      exact not_mem_apply os positions hall
        (Or.inl ⟨⟨q0.1, 0, TradeAct.closeLong⟩, hclose, hq0s⟩) q hq rfl
    · have hall : ∀ o ∈ os, o.sid = q.1 → o.act = TradeAct.closeLong := by
        intro o ho he
        rcases orders_cases ho with ⟨h1, -, -⟩ | ⟨-, -, h3⟩
        · exact absurd (he ▸ h1) hql
        · exact h3
      have habs : ∀ q0 ∈ positions, q0.1 ≠ q.1 := by
        intro q0 hq0 he
        exact hheld (List.mem_map.2 ⟨q0, hq0, he⟩)
      have hnone : ∀ o ∈ os, o.sid ≠ q.1 := by
        intro o ho he
        rcases orders_cases ho with ⟨h1, -, -⟩ | ⟨h1, -, -⟩
        · exact hql (he ▸ h1)
        · exact hheld (he ▸ h1)
      exact preserve_absent os positions hnone habs q hq rfl
  unfold rebalanceOrders
  have h1 : (longs.filter (fun s => (fun _ => true) s &&
      !(decide (s ∈ P2.map Prod.fst)))) = [] := by
    refine List.filter_eq_nil_iff.2 ?_
    intro s hs
    simp [ha s hs]
  have h2 : (P2.filter (fun q => !(decide (q.1 ∈ longs)) &&
      (fun _ => true) q.1)) = [] := by
    refine List.filter_eq_nil_iff.2 ?_
    intro q hq
    simp [hb q hq]
  rw [h1, h2]
  simp

lemma optGtB_mono {o : Option ℚ} {c c' : ℚ} (h : c ≤ c')
    (ho : optGtB o c' = true) : optGtB o c = true := by
  cases o with
  | none => simp [optGtB] at ho
  | some x =>
    simp only [optGtB, decide_eq_true_eq] at *
    exact lt_of_le_of_lt h ho

/-- C9: the universe mask is antitone in each numeric screen threshold:
raising the minimum market cap, price, or average dollar volume never
lets a new security in and never increases the mask cardinality. -/
theorem mask_antitone (t : List Security) (c c' p p' v v' : ℚ)
    (hc : c ≤ c') (hp : p ≤ p') (hv : v ≤ v') :
    (∀ s, univScreen c' p' v' s = true → univScreen c p v s = true) ∧
    (t.filter (univScreen c' p' v')).length ≤
      (t.filter (univScreen c p v)).length := by
  have hpt : ∀ s, univScreen c' p' v' s = true → univScreen c p v s = true := by
    intro s hs
    unfold univScreen at hs ⊢
    rw [Bool.and_eq_true, Bool.and_eq_true, Bool.and_eq_true] at hs ⊢
    obtain ⟨⟨⟨h1, h2⟩, h3⟩, h4⟩ := hs
    exact ⟨⟨⟨optGtB_mono hc h1, optGtB_mono hp h2⟩, optGtB_mono hv h3⟩, h4⟩
  exact ⟨hpt, (List.monotone_filter_right t hpt).length_le⟩

theorem mask_antitone_inst :
    (1 : ℚ) ≤ 2 ∧
    ([secA].filter (univScreen 2 2 2)).length ≤
      ([secA].filter (univScreen 1 1 1)).length :=
  ⟨by norm_num,
    (mask_antitone [secA] 1 2 1 2 1 2 (by norm_num) (by norm_num)
      (by norm_num)).2⟩

/-- C10: a masked security with a missing base factor value (roe,
fcf yield, or 20-day return) gets a missing composite rank and its row is
never flagged long_10 at any position, so it is never selected. -/
theorem null_factor_excluded (t : List Security) (s : Security)
    (hm : min_liq_univ s = true)
    (hnull : s.roe = none ∨ s.fcfYield = none ∨ s.ret20 = none) :
    qvm t s = none ∧ ∀ i, long_10 t (i, s) = false := by
  have hcomp : composite_raw t s = none := by
    unfold composite_raw
    rcases hnull with h | h | h
    · rw [show quality t s = none from by simp [quality, rankCol, hm, h]]
    · rw [show value t s = none from by simp [value, rankCol, hm, h]]
      cases quality t s <;> cases momentum t s <;> rfl
    · rw [show momentum t s = none from by simp [momentum, rankCol, hm, h]]
      cases quality t s <;> cases value t s <;> rfl
  have hqvm : qvm t s = none := by simp [qvm, rankCol, hm, hcomp]
  refine ⟨hqvm, ?_⟩
  intro i
  simp [long_10, topFlag, isPart, hqvm]

def secN : Security :=
  ⟨3, some 100000000, some 10, some 1000000, ['N', 'Y', 'S'],
    none, some 1, some 1, some 1⟩

theorem null_factor_excluded_inst :
    min_liq_univ secN = true ∧ qvm [secA, secN] secN = none ∧
      long_10 [secA, secN] (1, secN) = false :=
  ⟨by decide, (null_factor_excluded [secA, secN] secN (by decide) (Or.inl rfl)).1,
    (null_factor_excluded [secA, secN] secN (by decide) (Or.inl rfl)).2 1⟩

lemma exists_bottom {α : Type} [DecidableEq α] (r : α → α → Bool) (S : Finset α)
    (hne : S.Nonempty)
    (hirr : ∀ a ∈ S, r a a = false)
    (htr : ∀ a ∈ S, ∀ b ∈ S, ∀ c ∈ S,
      r a b = true → r b c = true → r a c = true) :
    ∃ w ∈ S, ∀ b ∈ S, r w b = false := by
  obtain ⟨w, hw, hmax⟩ :=
    S.exists_max_image (fun b => (S.filter (fun a => r a b = true)).card) hne
  refine ⟨w, hw, ?_⟩
  intro b hb
  by_contra hrb
  rw [Bool.not_eq_false] at hrb
  have hsub : insert w (S.filter (fun a => r a w = true)) ⊆
      S.filter (fun a => r a b = true) := by
    intro x hx
    rcases Finset.mem_insert.1 hx with rfl | hx
    · exact Finset.mem_filter.2 ⟨hw, hrb⟩
    · obtain ⟨hxS, hxw⟩ := Finset.mem_filter.1 hx
      exact Finset.mem_filter.2 ⟨hxS, htr x hxS w hw b hb hxw hrb⟩
  have hwnot : w ∉ S.filter (fun a => r a w = true) := by
    intro hmem
    have := (Finset.mem_filter.1 hmem).2
    rw [hirr w hw] at this
    exact Bool.false_ne_true this
  have hcard := Finset.card_le_card hsub
  rw [Finset.card_insert_of_not_mem hwnot] at hcard
  have := hmax b hb
  simp only at this hcard
  omega

lemma card_rank_lt {α : Type} [DecidableEq α] (r : α → α → Bool) :
    ∀ (n : Nat) (S : Finset α), S.card = n →
    (∀ a ∈ S, r a a = false) →
    (∀ a ∈ S, ∀ b ∈ S, ∀ c ∈ S,
      r a b = true → r b c = true → r a c = true) →
    (∀ a ∈ S, ∀ b ∈ S, a ≠ b → r a b = true ∨ r b a = true) →
    ∀ k, (S.filter
        (fun b => (S.filter (fun a => r a b = true)).card < k)).card
      = min k n := by
  intro n
  induction n with
  | zero =>
    intro S hS _ _ _ k
    rw [Finset.card_eq_zero] at hS
    subst hS
    simp
  | succ n ih =>
    intro S hS hirr htr htot k
    have hne : S.Nonempty := by
      rw [← Finset.card_pos, hS]
      omega
    obtain ⟨w, hw, hbot⟩ := exists_bottom r S hne hirr htr
    set S' := S.erase w with hSerase
    have hmemS' : ∀ x ∈ S', x ∈ S := fun x hx => (Finset.mem_erase.1 hx).2
    have hcard' : S'.card = n := by
      rw [hSerase, Finset.card_erase_of_mem hw, hS]
      rfl
    have hcnt : ∀ b ∈ S', (S.filter (fun a => r a b = true)).card
        = (S'.filter (fun a => r a b = true)).card := by
      intro b hb
      rw [hSerase, Finset.filter_erase, Finset.erase_eq_of_not_mem]
      intro hmem
      have := (Finset.mem_filter.1 hmem).2
      rw [hbot b (hmemS' b hb)] at this
      exact Bool.false_ne_true this
    have hcntw : (S.filter (fun a => r a w = true)).card = n := by
      have heq : S.filter (fun a => r a w = true) = S' := by
        ext x
        rw [Finset.mem_filter, hSerase, Finset.mem_erase]
        constructor
        · rintro ⟨hx, hr⟩
          refine ⟨?_, hx⟩
          rintro rfl
          rw [hirr x hx] at hr
          exact Bool.false_ne_true hr
        · rintro ⟨hne', hx⟩
          refine ⟨hx, ?_⟩
          rcases htot x hx w hw hne' with h | h
          · exact h
          · rw [hbot x hx] at h
            exact absurd h Bool.false_ne_true
      rw [heq, hcard']
    have hIH := ih S' hcard'
      (fun a ha => hirr a (hmemS' a ha))
      (fun a ha b hb c hc => htr a (hmemS' a ha) b (hmemS' b hb) c (hmemS' c hc))
      (fun a ha b hb hne' => htot a (hmemS' a ha) b (hmemS' b hb) hne') k
    have hfc : S'.filter (fun b => (S.filter (fun a => r a b = true)).card < k)
        = S'.filter (fun b => (S'.filter (fun a => r a b = true)).card < k) := by
      apply Finset.filter_congr
      intro b hb
      rw [hcnt b hb]
    have hstep : S'.filter (fun b => (S.filter (fun a => r a b = true)).card < k)
        = (S.filter (fun b => (S.filter (fun a => r a b = true)).card < k)).erase
            w := by
      rw [hSerase, Finset.filter_erase]
    by_cases hPw : (S.filter (fun a => r a w = true)).card < k
    · have hwmem : w ∈ S.filter
          (fun b => (S.filter (fun a => r a b = true)).card < k) :=
        Finset.mem_filter.2 ⟨hw, hPw⟩
      have hpos : 0 < (S.filter
          (fun b => (S.filter (fun a => r a b = true)).card < k)).card :=
        Finset.card_pos.2 ⟨w, hwmem⟩
      have h1 := Finset.card_erase_of_mem hwmem
      rw [← hstep, hfc, hIH] at h1
      rw [hcntw] at hPw
      omega
    · have hwmem : w ∉ S.filter
          (fun b => (S.filter (fun a => r a b = true)).card < k) := by
        intro hmem
        exact hPw (Finset.mem_filter.1 hmem).2
      have h1 := congrArg Finset.card (Finset.erase_eq_of_not_mem hwmem)
      rw [← hstep, hfc, hIH] at h1
      rw [hcntw] at hPw
      omega

lemma list_rank_count {α : Type} [DecidableEq α] (r : α → α → Bool)
    (L : List α) (hnd : L.Nodup)
    (hirr : ∀ a, r a a = false)
    (htr : ∀ a b c, r a b = true → r b c = true → r a c = true)
    (htot : ∀ a b, a ≠ b → r a b = true ∨ r b a = true) (k : Nat) :
    (L.filter (fun b =>
      decide ((L.filter (fun a => r a b)).length < k))).length
      = min k L.length := by
  have hlen : ∀ p : α → Bool, (L.filter p).length
      = (L.toFinset.filter (fun x => p x = true)).card := by
    intro p
    have h1 := List.toFinset_card_of_nodup (hnd.filter p)
    rw [List.toFinset_filter] at h1
    exact h1.symm
  rw [hlen]
  have hS := card_rank_lt r L.toFinset.card L.toFinset rfl
    (fun a _ => hirr a) (fun a _ b _ c _ => htr a b c)
    (fun a _ b _ hne => htot a b hne) k
  rw [List.toFinset_card_of_nodup hnd] at hS
  rw [← hS]
  refine congrArg Finset.card (Finset.filter_congr ?_)
  intro b _
  simp only [decide_eq_true_eq, hlen (fun a => r a b)]

lemma beats_irrefl (a : ℚ × Nat) : beats a a = false := by
  simp [beats]

lemma beats_trans (a b c : ℚ × Nat) :
    beats a b = true → beats b c = true → beats a c = true := by
  simp only [beats, Bool.or_eq_true, Bool.and_eq_true, decide_eq_true_eq]
  rintro (h1 | ⟨h1, h2⟩) (h3 | ⟨h3, h4⟩)
  · exact Or.inl (lt_trans h3 h1)
  · exact Or.inl (h3 ▸ h1)
  · exact Or.inl (h1 ▸ h3)
  · exact Or.inr ⟨h1.trans h3, lt_trans h2 h4⟩

lemma beats_total (a b : ℚ × Nat) (h : a ≠ b) :
    beats a b = true ∨ beats b a = true := by
  simp only [beats, Bool.or_eq_true, Bool.and_eq_true, decide_eq_true_eq]
  rcases lt_trichotomy a.1 b.1 with h1 | h1 | h1
  · exact Or.inr (Or.inl h1)
  · rcases lt_trichotomy a.2 b.2 with h3 | h3 | h3
    · exact Or.inl (Or.inr ⟨h1, h3⟩)
    · exact absurd (Prod.ext h1 h3) h
    · exact Or.inr (Or.inr ⟨h1.symm, h3⟩)
  · exact Or.inl (Or.inl h1)

/-- The participant rows of a ranked column, in table order. -/
def partsList (g : Security → Option ℚ) (t : List Security) :
    List (Nat × Security) :=
  (enumerate 0 t).filter (fun q => isPart g q.2)

/-- The participant sort keys of a ranked column. -/
def keysList (g : Security → Option ℚ) (t : List Security) : List (ℚ × Nat) :=
  (partsList g t).map (keyOf g)

lemma enumerate_map_fst : ∀ (n : Nat) (t : List Security),
    (enumerate n t).map Prod.fst = List.range' n t.length := by
  intro n t
  induction t generalizing n with
  | nil => rfl
  | cons s rest ih =>
    show n :: (enumerate (n + 1) rest).map Prod.fst
      = List.range' n (rest.length + 1)
    rw [ih]
    rfl

lemma enumerate_snd_mem : ∀ {n : Nat} {t : List Security} {p : Nat × Security},
    p ∈ enumerate n t → p.2 ∈ t := by
  intro n t
  induction t generalizing n with
  | nil => intro p h; cases h
  | cons s rest ih =>
    intro p h
    rcases List.mem_cons.1 h with rfl | h
    · exact List.mem_cons_self s rest
    · exact List.mem_cons_of_mem s (ih h)

lemma enumerate_filter_snd_length (f : Security → Bool) :
    ∀ (n : Nat) (t : List Security),
    ((enumerate n t).filter (fun q => f q.2)).length = (t.filter f).length := by
  intro n t
  induction t generalizing n with
  | nil => rfl
  | cons s rest ih =>
    show (((n, s) :: enumerate (n + 1) rest).filter (fun q => f q.2)).length
      = ((s :: rest).filter f).length
    rw [List.filter_cons, List.filter_cons]
    by_cases hf : f s = true
    · simp only [hf, if_true, List.length_cons, ih]
    · simp only [Bool.not_eq_true] at hf
      simp only [hf, Bool.false_eq_true, if_false, ih]

lemma keysList_nodup (g : Security → Option ℚ) (t : List Security) :
    (keysList g t).Nodup := by
  have h1 : (keysList g t).map Prod.snd = (partsList g t).map Prod.fst := by
    unfold keysList
    rw [List.map_map]
    rfl
  have h2 : ((partsList g t).map Prod.fst).Sublist
      ((enumerate 0 t).map Prod.fst) :=
    List.Sublist.map Prod.fst (List.filter_sublist (enumerate 0 t))
  have h3 : ((enumerate 0 t).map Prod.fst).Nodup := by
    rw [enumerate_map_fst]
    exact List.nodup_range' 0 t.length
  have h4 : ((keysList g t).map Prod.snd).Nodup := by
    rw [h1]
    exact List.Nodup.sublist h2 h3
  exact List.Nodup.of_map Prod.snd h4

lemma count_beats_eq (g : Security → Option ℚ) (t : List Security)
    (b : ℚ × Nat) :
    ((enumerate 0 t).filter
        (fun q => isPart g q.2 && beats (keyOf g q) b)).length
      = ((keysList g t).filter (fun a => beats a b)).length := by
  unfold keysList partsList
  rw [List.filter_map, List.length_map, List.filter_filter]
  refine congrArg List.length (List.filter_congr ?_)
  intro x _
  simp only [Function.comp_apply]
  exact Bool.and_comm _ _

lemma selected_count (g : Security → Option ℚ) (k : Nat) (t : List Security) :
    ((enumerate 0 t).filter (topFlag g k t)).length
      = ((keysList g t).filter (fun b =>
          decide (((keysList g t).filter (fun a => beats a b)).length
            < k))).length := by
  have h1 : ((enumerate 0 t).filter (topFlag g k t)).length
      = ((enumerate 0 t).filter (fun p => isPart g p.2 &&
          decide (((keysList g t).filter
            (fun a => beats a (keyOf g p))).length < k))).length := by
    refine congrArg List.length (List.filter_congr ?_)
    intro p _
    unfold topFlag
    rw [count_beats_eq]
  rw [h1]
  conv_rhs => rw [keysList, partsList]
  rw [List.filter_map, List.length_map, List.filter_filter]
  refine congrArg List.length (List.filter_congr ?_)
  intro p _
  simp only [Function.comp_apply]
  rw [Bool.and_comm]
  rfl

lemma long_10_mask {t : List Security} {p : Nat × Security}
    (h : long_10 t p = true) : min_liq_univ p.2 = true := by
  unfold long_10 topFlag isPart at h
  rw [Bool.and_eq_true] at h
  obtain ⟨h1, -⟩ := h
  rw [Bool.and_eq_true] at h1
  exact h1.1

lemma filter_map_long10 (t : List Security) (f : (Nat × Security) → PipeRow)
    (hl : ∀ p, (f p).long_10 = long_10 t p)
    (hs : ∀ p, (f p).sid = p.2.sid) :
    ((((enumerate 0 t).filter (fun p => min_liq_univ p.2)).map f).filter
        (fun r => r.long_10)).map (fun r => r.sid)
      = ((enumerate 0 t).filter (long_10 t)).map (fun p => p.2.sid) := by
  have h1 : (enumerate 0 t).filter
        (fun p => ((fun r => r.long_10) ∘ f) p && min_liq_univ p.2)
      = (enumerate 0 t).filter (long_10 t) := by
    refine List.filter_congr ?_
    intro p _
    simp only [Function.comp_apply, hl]
    by_cases hflag : long_10 t p = true
    · rw [hflag, long_10_mask hflag]
      rfl
    · rw [Bool.not_eq_true] at hflag
      rw [hflag]
      rfl
  rw [List.filter_map, List.map_map, List.filter_filter, h1]
  refine List.map_congr_left ?_
  intro p _
  simp only [Function.comp_apply, hs]

lemma selection_eq (t : List Security) :
    selection t = ((enumerate 0 t).filter (long_10 t)).map
      (fun p => p.2.sid) := by
  unfold selection pipeRows
  exact filter_map_long10 t _ (fun p => rfl) (fun p => rfl)

lemma selection_length (t : List Security) :
    (selection t).length
      = min 10 ((t.filter (fun s => isPart (qvm t) s)).length) := by
  rw [selection_eq, List.length_map]
  rw [show long_10 t = topFlag (qvm t) 10 t from rfl]
  rw [selected_count (qvm t) 10 t]
  rw [list_rank_count beats (keysList (qvm t) t) (keysList_nodup (qvm t) t)
    beats_irrefl beats_trans beats_total 10]
  rw [show (keysList (qvm t) t).length
      = (t.filter (fun s => isPart (qvm t) s)).length from ?_]
  unfold keysList partsList
  rw [List.length_map, enumerate_filter_snd_length]

lemma selection_subset (t : List Security) :
    selection t ⊆ (t.filter min_liq_univ).map (fun s => s.sid) := by
  intro id hid
  rw [selection_eq] at hid
  obtain ⟨p, hp, hsid⟩ := List.mem_map.1 hid
  obtain ⟨hpe, hflag⟩ := List.mem_filter.1 hp
  exact List.mem_map.2 ⟨p.2,
    List.mem_filter.2 ⟨enumerate_snd_mem hpe, long_10_mask hflag⟩, hsid⟩

/-- C5 counterexample: with two securities both passing every screen but
one missing its roe value, the mask has 2 members while the selection has
only 1, so the selection cardinality is not min(10, mask size): top-10
selection counts only masked securities with a present composite rank. -/
theorem selection_card_claim_false :
    ¬ ((selection [secA, secN]).length
        = min 10 (([secA, secN].filter min_liq_univ).length)) := by
  rw [selection_length]
  rw [show ([secA, secN].filter
      (fun s => isPart (qvm [secA, secN]) s)).length = 1 from by decide]
  rw [show ([secA, secN].filter min_liq_univ).length = 2 from by decide]
  norm_num

/-- C5 amended: the selection is always a set of identifiers of masked
securities, and its cardinality is min(10, number of masked securities
whose composite rank is present); it can fall below 10 exactly when
fewer than 10 masked securities carry a composite rank. -/
theorem selection_subset_card (t : List Security) :
    selection t ⊆ (t.filter min_liq_univ).map (fun s => s.sid) ∧
    (selection t).length
      = min 10 ((t.filter (fun s => isPart (qvm t) s)).length) :=
  ⟨selection_subset t, selection_length t⟩

/-- Two security records that agree on every field the rank and selection
path reads, leaving only fcf_per_share free. -/
def sameExceptFcfps (s s' : Security) : Prop :=
  s.sid = s'.sid ∧ s.marketCap = s'.marketCap ∧ s.priceClose = s'.priceClose ∧
  s.dollarVolume = s'.dollarVolume ∧ s.exchangeId = s'.exchangeId ∧
  s.roe = s'.roe ∧ s.fcfYield = s'.fcfYield ∧ s.ret20 = s'.ret20

lemma mask_congr {s s' : Security} (h : sameExceptFcfps s s') :
    min_liq_univ s = min_liq_univ s' := by
  obtain ⟨-, h1, h2, h3, h4, -, -, -⟩ := h
  unfold min_liq_univ univScreen
  rw [h1, h2, h3, h4]

lemma forall2_filter_length {α β : Type} {r : α → β → Prop}
    {p : α → Bool} {q : β → Bool} {l : List α} {l' : List β}
    (hf : List.Forall₂ r l l') (hpq : ∀ a b, r a b → p a = q b) :
    (l.filter p).length = (l'.filter q).length := by
  induction hf with
  | nil => rfl
  | @cons a b l1 l2 hab hrest ih =>
    rw [List.filter_cons, List.filter_cons, hpq a b hab]
    by_cases hb : q b = true
    · simp only [hb, if_true, List.length_cons, ih]
    · rw [Bool.not_eq_true] at hb
      simp only [hb, Bool.false_eq_true, if_false, ih]

lemma forall2_filter {α β : Type} {r : α → β → Prop}
    {p : α → Bool} {q : β → Bool} {l : List α} {l' : List β}
    (hf : List.Forall₂ r l l') (hpq : ∀ a b, r a b → p a = q b) :
    List.Forall₂ r (l.filter p) (l'.filter q) := by
  induction hf with
  | nil => exact List.Forall₂.nil
  | @cons a b l1 l2 hab hrest ih =>
    rw [List.filter_cons, List.filter_cons, hpq a b hab]
    by_cases hb : q b = true
    · simp only [hb, if_true]
      exact List.Forall₂.cons hab ih
    · rw [Bool.not_eq_true] at hb
      simp only [hb, Bool.false_eq_true, if_false]
      exact ih

lemma forall2_map_eq {α β γ : Type} {r : α → β → Prop}
    {f : α → γ} {g : β → γ} {l : List α} {l' : List β}
    (hf : List.Forall₂ r l l') (hpq : ∀ a b, r a b → f a = g b) :
    l.map f = l'.map g := by
  induction hf with
  | nil => rfl
  | @cons a b l1 l2 hab hrest ih =>
    rw [List.map_cons, List.map_cons, hpq a b hab, ih]

lemma forall2_filterMap_eq {α β γ : Type} {r : α → β → Prop}
    {f : α → Option γ} {g : β → Option γ} {l : List α} {l' : List β}
    (hf : List.Forall₂ r l l') (hpq : ∀ a b, r a b → f a = g b) :
    l.filterMap f = l'.filterMap g := by
  induction hf with
  | nil => rfl
  | @cons a b l1 l2 hab hrest ih =>
    rw [List.filterMap_cons, List.filterMap_cons, hpq a b hab, ih]

lemma maskedVals_congr {g g' : Security → Option ℚ}
    {t t' : List Security} (hf : List.Forall₂ sameExceptFcfps t t')
    (hg : ∀ a b, sameExceptFcfps a b → g a = g' b) :
    maskedVals g t = maskedVals g' t' := by
  unfold maskedVals
  exact forall2_filterMap_eq
    (forall2_filter hf (fun _ _ hab => mask_congr hab)) hg

lemma rankCol_congr {g g' : Security → Option ℚ}
    {t t' : List Security} (hf : List.Forall₂ sameExceptFcfps t t')
    (hg : ∀ a b, sameExceptFcfps a b → g a = g' b)
    {s s' : Security} (hss' : sameExceptFcfps s s') :
    rankCol g t s = rankCol g' t' s' := by
  unfold rankCol
  rw [mask_congr hss', hg s s' hss', maskedVals_congr hf hg]

lemma quality_congr {t t' : List Security}
    (hf : List.Forall₂ sameExceptFcfps t t')
    {s s' : Security} (hss' : sameExceptFcfps s s') :
    quality t s = quality t' s' :=
  rankCol_congr hf (fun _ _ hab => hab.2.2.2.2.2.1) hss'

lemma value_congr {t t' : List Security}
    (hf : List.Forall₂ sameExceptFcfps t t')
    {s s' : Security} (hss' : sameExceptFcfps s s') :
    value t s = value t' s' :=
  rankCol_congr hf (fun _ _ hab => hab.2.2.2.2.2.2.1) hss'

lemma momentum_congr {t t' : List Security}
    (hf : List.Forall₂ sameExceptFcfps t t')
    {s s' : Security} (hss' : sameExceptFcfps s s') :
    momentum t s = momentum t' s' :=
  rankCol_congr hf (fun _ _ hab => hab.2.2.2.2.2.2.2) hss'

lemma composite_raw_congr {t t' : List Security}
    (hf : List.Forall₂ sameExceptFcfps t t')
    {s s' : Security} (hss' : sameExceptFcfps s s') :
    composite_raw t s = composite_raw t' s' := by
  unfold composite_raw
  rw [quality_congr hf hss', value_congr hf hss', momentum_congr hf hss']

lemma qvm_congr {t t' : List Security}
    (hf : List.Forall₂ sameExceptFcfps t t')
    {s s' : Security} (hss' : sameExceptFcfps s s') :
    qvm t s = qvm t' s' :=
  rankCol_congr hf (fun _ _ hab => composite_raw_congr hf hab) hss'

lemma enumerate_forall2 {t t' : List Security}
    (hf : List.Forall₂ sameExceptFcfps t t') :
    ∀ n, List.Forall₂ (fun p q => p.1 = q.1 ∧ sameExceptFcfps p.2 q.2)
      (enumerate n t) (enumerate n t') := by
  induction hf with
  | nil => intro n; exact List.Forall₂.nil
  | @cons a b l1 l2 hab hrest ih =>
    intro n
    exact List.Forall₂.cons ⟨rfl, hab⟩ (ih (n + 1))

lemma isPart_congr {g g' : Security → Option ℚ}
    (hg : ∀ a b, sameExceptFcfps a b → g a = g' b)
    {s s' : Security} (hss' : sameExceptFcfps s s') :
    isPart g s = isPart g' s' := by
  unfold isPart
  rw [mask_congr hss', hg s s' hss']

lemma keyOf_congr {g g' : Security → Option ℚ}
    (hg : ∀ a b, sameExceptFcfps a b → g a = g' b)
    {p q : Nat × Security} (hpq : p.1 = q.1 ∧ sameExceptFcfps p.2 q.2) :
    keyOf g p = keyOf g' q := by
  unfold keyOf
  rw [hg p.2 q.2 hpq.2, hpq.1]

lemma topFlag_congr {g g' : Security → Option ℚ}
    {t t' : List Security} (hf : List.Forall₂ sameExceptFcfps t t')
    (hg : ∀ a b, sameExceptFcfps a b → g a = g' b) (k : Nat)
    {p q : Nat × Security} (hpq : p.1 = q.1 ∧ sameExceptFcfps p.2 q.2) :
    topFlag g k t p = topFlag g' k t' q := by
  unfold topFlag
  rw [isPart_congr hg hpq.2, keyOf_congr hg hpq]
  rw [forall2_filter_length (enumerate_forall2 hf 0) (fun a b hab => by
    rw [isPart_congr hg hab.2, keyOf_congr hg hab])]

lemma selection_congr {t t' : List Security}
    (hf : List.Forall₂ sameExceptFcfps t t') :
    selection t = selection t' := by
  rw [selection_eq, selection_eq]
  refine forall2_map_eq
    (forall2_filter (enumerate_forall2 hf 0) (fun a b hab => ?_))
    (fun a b hab => ?_)
  · exact topFlag_congr hf (fun a' b' hab' => qvm_congr hf hab') 10 hab
  · exact hab.2.1

lemma enumerate_filter_snd_map (f : Security → Bool)
    (h : Security → Option ℚ) :
    ∀ (n : Nat) (t : List Security),
    ((enumerate n t).filter (fun q => f q.2)).map (fun q => h q.2)
      = (t.filter f).map h := by
  intro n t
  induction t generalizing n with
  | nil => rfl
  | cons s rest ih =>
    show (((n, s) :: enumerate (n + 1) rest).filter (fun q => f q.2)).map
        (fun q => h q.2)
      = ((s :: rest).filter f).map h
    rw [List.filter_cons, List.filter_cons]
    by_cases hf : f s = true
    · simp only [hf, if_true, List.map_cons, ih]
    · rw [Bool.not_eq_true] at hf
      simp only [hf, Bool.false_eq_true, if_false, ih]

lemma pipeRows_manual (t : List Security) :
    (pipeRows t).map (fun r => r.fcf_yield_manual)
      = (t.filter min_liq_univ).map fcf_yield_manual := by
  unfold pipeRows
  rw [List.map_map]
  exact enumerate_filter_snd_map min_liq_univ fcf_yield_manual 0 t

/-- C7: the manual value column fcf_per_share / price_close never feeds
the rank or selection path: two tables that differ only in fcf_per_share
produce identical per-factor ranks, composite ranks and selections, while
the manual value remains an observable output column of every masked row. -/
theorem manual_value_no_influence (t t' : List Security)
    (hf : List.Forall₂ sameExceptFcfps t t') :
    (∀ s s', sameExceptFcfps s s' →
      quality t s = quality t' s' ∧ value t s = value t' s' ∧
      momentum t s = momentum t' s' ∧ qvm t s = qvm t' s') ∧
    selection t = selection t' ∧
    (pipeRows t).map (fun r => r.fcf_yield_manual)
      = (t.filter min_liq_univ).map fcf_yield_manual :=
  ⟨fun _ _ hss' => ⟨quality_congr hf hss', value_congr hf hss',
      momentum_congr hf hss', qvm_congr hf hss'⟩,
    selection_congr hf, pipeRows_manual t⟩

def secA' : Security :=
  ⟨1, some 100000000, some 10, some 1000000, ['N', 'Y', 'S'],
    some 2, some 3, some 9, some 5⟩

theorem manual_value_no_influence_inst :
    List.Forall₂ sameExceptFcfps [secA] [secA'] ∧
      selection [secA] = selection [secA'] := by
  have h : List.Forall₂ sameExceptFcfps [secA] [secA'] :=
    List.Forall₂.cons ⟨rfl, rfl, rfl, rfl, rfl, rfl, rfl, rfl⟩
      List.Forall₂.nil
  exact ⟨h, (manual_value_no_influence [secA] [secA'] h).2.1⟩

theorem selection_subset_card_inst :
    (selection [secA, secN]).length
      = min 10 (([secA, secN].filter
          (fun s => isPart (qvm [secA, secN]) s)).length) :=
  (selection_subset_card [secA, secN]).2
